import Mathlib

/-!
Verification of the beer-tracker statistics and record-management logic.

The data model and operations below are shallow embeddings of the
TypeScript source (`StatsPage.tsx`, `RecordPage.tsx`, the beers page) over
exact rational arithmetic. Database `decimal` columns become `ℚ`, dates
become an explicit year/month/day structure, and the joined `beer` row of
a consumption record becomes an `Option` (a `null` join result is `none`).
-/

/-- A calendar date, date-only as in the `date` column of
`consumption_records`. -/
structure CalDate where
  year : Int
  month : Nat
  day : Nat
deriving DecidableEq, Repr

/-- The joined beer columns selected by `beer:beers(name, volume,
alcohol_percentage)` in `StatsPage.tsx`. -/
structure BeerInfo where
  name : String
  volume : ℚ
  alcohol_percentage : ℚ
deriving DecidableEq, Repr

/-- One row of `consumption_records` as loaded by `StatsPage.tsx`,
carrying the joined beer (possibly `null`). -/
structure ConsumptionRecord where
  date : CalDate
  beer_id : String
  quantity : ℚ
  beer : Option BeerInfo
deriving DecidableEq, Repr

/-- `getMonthTotal` from `StatsPage.tsx`:
`records.reduce((sum, record) => sum + record.quantity, 0)`. -/
def getMonthTotal (records : List ConsumptionRecord) : ℚ :=
  records.foldl (fun sum record => sum + record.quantity) 0

/-- `getMonthAlcohol` from `StatsPage.tsx`: reduce that adds
`beer.volume * beer.alcohol_percentage * quantity / 100` when the joined
beer is present and leaves the accumulator unchanged otherwise. -/
def getMonthAlcohol (records : List ConsumptionRecord) : ℚ :=
  records.foldl
    (fun sum record =>
      match record.beer with
      | some b => sum + b.volume * b.alcohol_percentage * record.quantity / 100
      | none => sum)
    0

/-- The alcohol contribution of a single record as the spec words it:
`quantity × drink.volume × drink.alcoholPercentage / 100`, zero when the
joined drink is absent. -/
def specAlcohol (record : ConsumptionRecord) : ℚ :=
  match record.beer with
  | some b => record.quantity * b.volume * b.alcohol_percentage / 100
  | none => 0

/-- The drinking-days counter of `StatsPage.tsx`:
`new Set(records.map(r => r.date)).size`. A JS `Set` is modelled as a
duplicate-free list built by insertion order. -/
def listSet {α : Type} [DecidableEq α] (l : List α) : List α :=
  l.foldl (fun acc a => if a ∈ acc then acc else acc ++ [a]) []

/-- `drinkingDays`: the size of the `Set` of the records' dates. -/
def drinkingDays (records : List ConsumptionRecord) : Nat :=
  (listSet (records.map (·.date))).length

/-- `getDayTotal` from `StatsPage.tsx`: filter the records of one date
and reduce their quantities. -/
def getDayTotal (records : List ConsumptionRecord) (d : CalDate) : ℚ :=
  (records.filter (fun r => r.date = d)).foldl (fun sum r => sum + r.quantity) 0

/-- Rounding to two decimals as the source does with
`Math.round(x * 100) / 100`; JS `Math.round` is floor of `x + 1/2`,
which is Mathlib's `round`. -/
def round2 (x : ℚ) : ℚ := (round (x * 100) : ℤ) / 100

/-- `averageDaily` from the home page's `loadStats`:
`thisMonthTotal / daysInMonth` where `daysInMonth = now.getDate()` is the
current day of the month (1–31), stored after rounding to two
decimals. -/
def averageDaily (monthRecords : List ConsumptionRecord) (dayOfMonth : Nat) : ℚ :=
  round2 (getMonthTotal monthRecords / dayOfMonth)

/-- Modelled from the spec: "`maxInDay`: maximum of per-date quantity
sums (0 if input empty)". The repository computes the per-date sums in
`getDayTotal` (`StatsPage.tsx`) but holds no maximum anywhere; the
maximum over the distinct dates of the input is taken here as the spec
directs. -/
def maxInDay (records : List ConsumptionRecord) : ℚ :=
  match (listSet (records.map (·.date))).map (getDayTotal records) with
  | [] => 0
  | x :: xs => xs.foldl max x

/-- One stored row of `consumption_records` as written by
`RecordPage.tsx` (`selectedDate` is the `yyyy-MM-dd` string of the date
input). -/
structure DbRow where
  date : String
  beer_id : String
  quantity : ℚ
  user_id : String
deriving DecidableEq, Repr

/-- The `.eq('user_id', …).eq('date', …)` condition of the delete and
load queries in `RecordPage.tsx`. -/
def rowMatches (u d : String) (r : DbRow) : Bool :=
  r.user_id == u && r.date == d

/-- `handleSave` from `RecordPage.tsx` as a transformation of the stored
row list: delete the rows of `(user, date)` when any were loaded for
that date, then insert the form entries with positive quantity. -/
def handleSave (db : List DbRow) (u d : String) (form : List (String × ℚ)) :
    List DbRow :=
  (if 0 < (db.filter (rowMatches u d)).length
    then db.filter (fun r => !(rowMatches u d r))
    else db) ++
  (form.filter (fun e => 0 < e.2)).map (fun e => DbRow.mk d e.1 e.2 u)

/-- The `'yyyy-MM'` grouping key of `loadYearlyStats`, as the pair of
year and month of the record's date. -/
def monthKey (d : CalDate) : Int × Nat := (d.year, d.month)

/-- The alcohol summand of the source, in its operand order:
`record.beer.volume * record.beer.alcohol_percentage * record.quantity / 100`
when the joined beer is present, nothing otherwise. -/
def codeAlcohol (r : ConsumptionRecord) : ℚ :=
  match r.beer with
  | some b => b.volume * b.alcohol_percentage * r.quantity / 100
  | none => 0

/-- One month's accumulator of `loadYearlyStats`, with the
`daysConsumed` JS `Set` as an insertion-ordered duplicate-free list. -/
structure MonthGroup where
  month : Int × Nat
  totalQuantity : ℚ
  totalAlcohol : ℚ
  daysConsumed : List CalDate
deriving DecidableEq, Repr

/-- `Set.add`: append the date unless already present. -/
def setAdd (l : List CalDate) (d : CalDate) : List CalDate :=
  if d ∈ l then l else l ++ [d]

/-- One step of the `data?.forEach(record => …)` accumulation of
`loadYearlyStats`: find the record's month bucket (creating it at the
end when absent, as JS object insertion does) and add the record's
quantity, its alcohol when the beer is present, and its date. -/
def bump (r : ConsumptionRecord) : List MonthGroup → List MonthGroup
  | [] => [⟨monthKey r.date, r.quantity, codeAlcohol r, [r.date]⟩]
  | g :: gs =>
    if g.month = monthKey r.date then
      ⟨g.month, g.totalQuantity + r.quantity, g.totalAlcohol + codeAlcohol r,
        setAdd g.daysConsumed r.date⟩ :: gs
    else g :: bump r gs

/-- The grouped accumulators after the whole `forEach`. -/
def yearlyGroups (records : List ConsumptionRecord) : List MonthGroup :=
  records.foldl (fun acc r => bump r acc) []

/-- One element of the `yearlyStats` state: the accumulator with
`daysConsumed` replaced by the set's size, as in the final `map` of
`loadYearlyStats`. -/
structure MonthStat where
  month : Int × Nat
  totalQuantity : ℚ
  totalAlcohol : ℚ
  daysConsumed : Nat
deriving DecidableEq, Repr

def yearlyStats (records : List ConsumptionRecord) : List MonthStat :=
  (yearlyGroups records).map
    (fun g => ⟨g.month, g.totalQuantity, g.totalAlcohol, g.daysConsumed.length⟩)

/-- The monthly-breakdown rows of the yearly view: for each of the 12
month indices, `yearlyStats.find(stat => stat.month === monthKey)` and
zeros when the month is absent (`monthData?.x || 0`). -/
def monthlyBreakdown (records : List ConsumptionRecord) (year : Int) :
    List MonthStat :=
  (List.range 12).map (fun index =>
    match (yearlyStats records).find? (fun s => s.month = (year, index)) with
    | some s => ⟨(year, index), s.totalQuantity, s.totalAlcohol, s.daysConsumed⟩
    | none => ⟨(year, index), 0, 0, 0⟩)

/-- The records of one calendar month of one year. -/
def monthSlice (records : List ConsumptionRecord) (year : Int) (m : Nat) :
    List ConsumptionRecord :=
  records.filter (fun r => monthKey r.date = (year, m))

/-- Modelled from the spec: "`totalVolume`: sum of `quantity ×
drink.volume` across records"; a record whose joined drink is absent
contributes zero, by the spec's absent-drink convention. The repository
computes no volume total in the yearly view. -/
def volOf (r : ConsumptionRecord) : ℚ :=
  match r.beer with
  | some b => r.quantity * b.volume
  | none => 0

def totalVolume (records : List ConsumptionRecord) : ℚ :=
  (records.map volOf).sum

def lookQ (k : Int × Nat) (gs : List MonthGroup) : ℚ :=
  match gs.find? (fun g => g.month = k) with
  | some g => g.totalQuantity
  | none => 0

def lookA (k : Int × Nat) (gs : List MonthGroup) : ℚ :=
  match gs.find? (fun g => g.month = k) with
  | some g => g.totalAlcohol
  | none => 0

def lookD (k : Int × Nat) (gs : List MonthGroup) : List CalDate :=
  match gs.find? (fun g => g.month = k) with
  | some g => g.daysConsumed
  | none => []

/-- One row of the spec's ranking: a drink id with its aggregated
quantity and volume, tagged with its rank `idx` in first-encounter order
of the distinct drink ids. -/
structure RankEntry where
  beer_id : String
  idx : Nat
  quantity : ℚ
  volume : ℚ
deriving DecidableEq, Repr

/-- The distinct drink ids of the input in first-encounter order. -/
def distinctIds (records : List ConsumptionRecord) : List String :=
  listSet (records.map (·.beer_id))

/-- Modelled from the spec: the quantity aggregated "per distinct drink
id" — the sum of the quantities of the records of one drink. -/
def qtySum (records : List ConsumptionRecord) (id : String) : ℚ :=
  ((records.filter (fun r => r.beer_id = id)).map (·.quantity)).sum

/-- Modelled from the spec: the volume aggregated per distinct drink id,
`quantity × drink.volume` summed over the drink's records. -/
def volSum (records : List ConsumptionRecord) (id : String) : ℚ :=
  ((records.filter (fun r => r.beer_id = id)).map volOf).sum

/-- Modelled from the spec: one accumulator entry per distinct drink id,
in first-encounter order ("an explicit mapping structure (id →
accumulator)"). -/
def rankingEntries (records : List ConsumptionRecord) : List RankEntry :=
  (distinctIds records).enum.map
    (fun p => ⟨p.2, p.1, qtySum records p.2, volSum records p.2⟩)

/-- Stable descending insertion: the new entry passes every entry whose
aggregated quantity is at least its own, so equal-quantity entries keep
their earlier-first order. -/
def insertDesc (x : RankEntry) : List RankEntry → List RankEntry
  | [] => [x]
  | y :: ys =>
    if y.quantity < x.quantity then x :: y :: ys else y :: insertDesc x ys

/-- Modelled from the spec: "`ranking`: list of (drink, quantity,
volume) aggregated per distinct drink id, sorted descending by
aggregated quantity; ties retain encounter order (stable sort)". The
repository exposes no ranking; this follows the spec's words. -/
def ranking (records : List ConsumptionRecord) : List RankEntry :=
  (rankingEntries records).foldl (fun acc x => insertDesc x acc) []

/-- The sorted-and-stable order of the modelled ranking: strictly larger
quantity first, ties in first-encounter order. -/
def rankR (a b : RankEntry) : Prop :=
  b.quantity < a.quantity ∨ (a.quantity = b.quantity ∧ a.idx < b.idx)

/-- One row of `beers` as managed by the beers page. -/
structure Beer where
  id : String
  name : String
  volume : ℚ
  alcohol_percentage : ℚ
  sort_order : Int
deriving DecidableEq, Repr, Inhabited

inductive MoveDir where
  | up
  | down
deriving DecidableEq, Repr

/-- `direction === 'up' ? index - 1 : index + 1` of `moveBeer`. -/
def targetIndex : Nat → MoveDir → Int
  | index, MoveDir.up => (index : Int) - 1
  | index, MoveDir.down => (index : Int) + 1

/-- The destructuring swap
`[newBeers[index], newBeers[targetIndex]] = [newBeers[targetIndex], newBeers[index]]`. -/
def swapAt {α : Type} [Inhabited α] (l : List α) (i j : Nat) : List α :=
  (l.set i (l.getD j default)).set j (l.getD i default)

/-- The `newBeers.map((beer, i) => update sort_order = i)` step of
`moveBeer`: the stored sort position of every beer becomes its list
index. -/
def reindex (l : List Beer) : List Beer :=
  l.enum.map (fun p => { p.2 with sort_order := (p.1 : Int) })

/-- `moveBeer` from the beers page, as the stored state after a
successful save: no change when the target index is out of range,
otherwise the swapped list with every `sort_order` rewritten to the new
list index. -/
def moveBeer (beers : List Beer) (index : Nat) (dir : MoveDir) : List Beer :=
  if targetIndex index dir < 0 ∨ (beers.length : Int) ≤ targetIndex index dir
  then beers
  else reindex (swapAt beers index (targetIndex index dir).toNat)

/-- A beer's fields apart from its sort position. -/
def eraseOrder (b : Beer) : String × String × ℚ × ℚ :=
  (b.id, b.name, b.volume, b.alcohol_percentage)

-- Helper: a left fold that adds `f r` to the accumulator is the sum of
-- the mapped list.
theorem foldl_add_eq_sum {α : Type} (f : α → ℚ) (l : List α) (init : ℚ) :
    l.foldl (fun s a => s + f a) init = init + (l.map f).sum := by
  induction l generalizing init with
  | nil => simp
  | cons a l ih => simp [List.foldl_cons, ih, add_assoc]

theorem getMonthTotal_eq_sum (records : List ConsumptionRecord) :
    getMonthTotal records = (records.map (·.quantity)).sum := by
  simpa using foldl_add_eq_sum (·.quantity) records 0

theorem getMonthAlcohol_eq_sum (records : List ConsumptionRecord) :
    getMonthAlcohol records = (records.map specAlcohol).sum := by
  have h : getMonthAlcohol records
      = records.foldl (fun s r => s + specAlcohol r) 0 := by
    unfold getMonthAlcohol
    congr 1
    funext s r
    cases hb : r.beer with
    | none => simp [specAlcohol, hb]
    | some b => simp [specAlcohol, hb]; ring
  rw [h]
  simpa using foldl_add_eq_sum specAlcohol records 0

/-- C1: `totalQuantity` (the `getMonthTotal` reduce) is the sum of the
records' quantity fields, and it is invariant under any permutation of
the input list. -/
theorem totalQuantity_sum_perm_invariant
    (records records' : List ConsumptionRecord)
    (h : records.Perm records') :
    getMonthTotal records = (records.map (·.quantity)).sum ∧
    getMonthTotal records = getMonthTotal records' := by
  refine ⟨getMonthTotal_eq_sum records, ?_⟩
  rw [getMonthTotal_eq_sum, getMonthTotal_eq_sum]
  exact List.Perm.sum_eq (h.map (·.quantity))

/-- Witness for C1 at a concrete two-record list and its reversal. -/
theorem totalQuantity_sum_perm_invariant_witness :
    [ConsumptionRecord.mk ⟨2024, 4, 1⟩ "a" 2 none,
     ConsumptionRecord.mk ⟨2024, 4, 3⟩ "b" 3 none].Perm
      [ConsumptionRecord.mk ⟨2024, 4, 3⟩ "b" 3 none,
       ConsumptionRecord.mk ⟨2024, 4, 1⟩ "a" 2 none] ∧
    getMonthTotal
      [ConsumptionRecord.mk ⟨2024, 4, 1⟩ "a" 2 none,
       ConsumptionRecord.mk ⟨2024, 4, 3⟩ "b" 3 none]
      = ([ConsumptionRecord.mk ⟨2024, 4, 1⟩ "a" 2 none,
          ConsumptionRecord.mk ⟨2024, 4, 3⟩ "b" 3 none].map (·.quantity)).sum ∧
    getMonthTotal
      [ConsumptionRecord.mk ⟨2024, 4, 1⟩ "a" 2 none,
       ConsumptionRecord.mk ⟨2024, 4, 3⟩ "b" 3 none]
      = getMonthTotal
      [ConsumptionRecord.mk ⟨2024, 4, 3⟩ "b" 3 none,
       ConsumptionRecord.mk ⟨2024, 4, 1⟩ "a" 2 none] := by
  have hp : [ConsumptionRecord.mk ⟨2024, 4, 1⟩ "a" 2 none,
      ConsumptionRecord.mk ⟨2024, 4, 3⟩ "b" 3 none].Perm
      [ConsumptionRecord.mk ⟨2024, 4, 3⟩ "b" 3 none,
       ConsumptionRecord.mk ⟨2024, 4, 1⟩ "a" 2 none] := List.Perm.swap _ _ _
  have := totalQuantity_sum_perm_invariant _ _ hp
  exact ⟨hp, this.1, this.2⟩

/-- C2: `totalAlcohol` (the `getMonthAlcohol` reduce) equals the sum over
all records of `quantity × volume × alcohol_percentage / 100`, a record
with an absent joined drink contributing zero. -/
theorem totalAlcohol_eq_spec_sum (records : List ConsumptionRecord) :
    getMonthAlcohol records = (records.map specAlcohol).sum :=
  getMonthAlcohol_eq_sum records

-- Membership in the JS-`Set` model: an element is in the built set iff
-- it is in the accumulator or in the remaining input.
theorem mem_listSet_foldl {α : Type} [DecidableEq α] (l : List α) (acc : List α) (a : α) :
    a ∈ l.foldl (fun acc x => if x ∈ acc then acc else acc ++ [x]) acc ↔
      a ∈ acc ∨ a ∈ l := by
  induction l generalizing acc with
  | nil => simp
  | cons x l ih =>
    rw [List.foldl_cons, ih]
    by_cases hx : x ∈ acc
    · simp only [if_pos hx, List.mem_cons]
      constructor
      · rintro (h | h)
        · exact Or.inl h
        · exact Or.inr (Or.inr h)
      · rintro (h | h | h)
        · exact Or.inl h
        · exact Or.inl (h ▸ hx)
        · exact Or.inr h
    · simp only [if_neg hx, List.mem_append, List.mem_singleton, List.mem_cons]
      tauto

theorem mem_listSet {α : Type} [DecidableEq α] (l : List α) (a : α) :
    a ∈ listSet l ↔ a ∈ l := by
  unfold listSet
  rw [mem_listSet_foldl]
  simp

-- The JS-`Set` model never holds duplicates.
theorem nodup_listSet_foldl {α : Type} [DecidableEq α] (l : List α) (acc : List α)
    (hacc : acc.Nodup) :
    (l.foldl (fun acc x => if x ∈ acc then acc else acc ++ [x]) acc).Nodup := by
  induction l generalizing acc with
  | nil => simpa using hacc
  | cons x l ih =>
    rw [List.foldl_cons]
    by_cases hx : x ∈ acc
    · rw [if_pos hx]; exact ih acc hacc
    · rw [if_neg hx]
      refine ih _ ?_
      simp [List.nodup_append, hacc, hx]

theorem nodup_listSet {α : Type} [DecidableEq α] (l : List α) :
    (listSet l).Nodup :=
  nodup_listSet_foldl l [] List.nodup_nil

theorem listSet_length_eq_card {α : Type} [DecidableEq α] (l : List α) :
    (listSet l).length = l.toFinset.card := by
  have h1 : (listSet l).toFinset = l.toFinset := by
    ext a
    simp [List.mem_toFinset, mem_listSet]
  rw [← h1, List.toFinset_card_of_nodup (nodup_listSet l)]

theorem drinkingDays_eq_card (records : List ConsumptionRecord) :
    drinkingDays records = (records.map (·.date)).toFinset.card :=
  listSet_length_eq_card _

/-- C3, counterexample: one record of quantity 6 on a single date, with
the save happening on the 3rd day of the month. `drinkingDays` is 1 and
positive, yet the code's `averageDaily` is 2, not
`totalQuantity / drinkingDays = 6`: the divisor in the source is the day
of the month, not the number of drinking days. -/
theorem avgPerDay_claim_counterexample :
    0 < drinkingDays [ConsumptionRecord.mk ⟨2024, 4, 1⟩ "a" 6 none] ∧
    averageDaily [ConsumptionRecord.mk ⟨2024, 4, 1⟩ "a" 6 none] 3 ≠
      getMonthTotal [ConsumptionRecord.mk ⟨2024, 4, 1⟩ "a" 6 none] /
        (drinkingDays [ConsumptionRecord.mk ⟨2024, 4, 1⟩ "a" 6 none] : ℚ) := by
  constructor
  · decide
  · intro h
    have h2 : averageDaily [ConsumptionRecord.mk ⟨2024, 4, 1⟩ "a" 6 none] 3 = 2 := by
      unfold averageDaily round2 getMonthTotal
      norm_num
    have h6 : getMonthTotal [ConsumptionRecord.mk ⟨2024, 4, 1⟩ "a" 6 none] /
        (drinkingDays [ConsumptionRecord.mk ⟨2024, 4, 1⟩ "a" 6 none] : ℚ) = 6 := by
      unfold getMonthTotal drinkingDays listSet
      norm_num
    rw [h2, h6] at h
    norm_num at h

/-- C3 as amended: `drinkingDays` is the number of distinct dates in the
input; the code's `averageDaily` equals the quantity sum divided by the
current day of the month (always at least 1), rounded to two decimals —
not by `drinkingDays` — and on an empty list it is 0, with no division
error. -/
theorem drinkingDays_and_averageDaily
    (records : List ConsumptionRecord) (dayOfMonth : Nat)
    (hday : 1 ≤ dayOfMonth) :
    drinkingDays records = (records.map (·.date)).toFinset.card ∧
    averageDaily records dayOfMonth =
      round2 ((records.map (·.quantity)).sum / dayOfMonth) ∧
    (records = [] → averageDaily records dayOfMonth = 0) := by
  refine ⟨drinkingDays_eq_card records, ?_, ?_⟩
  · rw [averageDaily, getMonthTotal_eq_sum]
  · intro h
    subst h
    unfold averageDaily round2 getMonthTotal
    norm_num

/-- Witness for the amended C3 at a concrete record list and day 3. -/
theorem drinkingDays_and_averageDaily_witness :
    1 ≤ 3 ∧
    (drinkingDays [ConsumptionRecord.mk ⟨2024, 4, 1⟩ "a" 6 none] =
      ([ConsumptionRecord.mk ⟨2024, 4, 1⟩ "a" 6 none].map (·.date)).toFinset.card ∧
    averageDaily [ConsumptionRecord.mk ⟨2024, 4, 1⟩ "a" 6 none] 3 =
      round2 (([ConsumptionRecord.mk ⟨2024, 4, 1⟩ "a" 6 none].map (·.quantity)).sum / 3) ∧
    ([ConsumptionRecord.mk ⟨2024, 4, 1⟩ "a" 6 none] = ([] : List ConsumptionRecord) →
      averageDaily [ConsumptionRecord.mk ⟨2024, 4, 1⟩ "a" 6 none] 3 = 0)) := by
  refine ⟨by norm_num, ?_⟩
  have := drinkingDays_and_averageDaily
    [ConsumptionRecord.mk ⟨2024, 4, 1⟩ "a" 6 none] 3 (by norm_num)
  simpa using this

theorem le_foldl_max (x : ℚ) (xs : List ℚ) : x ≤ xs.foldl max x := by
  induction xs generalizing x with
  | nil => simp
  | cons y ys ih => exact le_trans (le_max_left x y) (ih (max x y))

theorem foldl_max_le_of_mem (x y : ℚ) (xs : List ℚ) (hy : y ∈ xs) :
    y ≤ xs.foldl max x := by
  induction xs generalizing x with
  | nil => simp at hy
  | cons z zs ih =>
    rw [List.foldl_cons]
    rcases List.mem_cons.mp hy with h | h
    · rw [h]
      exact le_trans (le_max_right x z) (le_foldl_max _ _)
    · exact ih (max x z) h

theorem foldl_max_mem (x : ℚ) (xs : List ℚ) : xs.foldl max x ∈ x :: xs := by
  induction xs generalizing x with
  | nil => simp
  | cons y ys ih =>
    rw [List.foldl_cons]
    rcases List.mem_cons.mp (ih (max x y)) with h | h
    · rcases max_choice x y with hm | hm
      · rw [h, hm]; exact List.mem_cons_self _ _
      · rw [h, hm]; exact List.mem_cons_of_mem _ (List.mem_cons_self _ _)
    · exact List.mem_cons_of_mem _ (List.mem_cons_of_mem _ h)

/-- C4: `maxInDay` bounds every per-date quantity sum of a date present
in the input from above, is attained at some present date when the input
is non-empty, and is 0 on empty input. -/
theorem maxInDay_correct (records : List ConsumptionRecord) :
    (∀ d ∈ records.map (·.date), getDayTotal records d ≤ maxInDay records) ∧
    (records ≠ [] →
      ∃ d ∈ records.map (·.date), maxInDay records = getDayTotal records d) ∧
    (records = [] → maxInDay records = 0) := by
  cases h : listSet (records.map (·.date)) with
  | nil =>
    have hempty : records.map (·.date) = [] := by
      rcases hm : records.map (·.date) with _ | ⟨d, ds⟩
      · exact hm
      · exfalso
        have : d ∈ listSet (records.map (·.date)) := by
          rw [mem_listSet, hm]; exact List.mem_cons_self _ _
        rw [h] at this
        simp at this
    have hrec : records = [] := List.map_eq_nil_iff.mp hempty
    refine ⟨?_, ?_, ?_⟩
    · intro d hd; rw [hempty] at hd; simp at hd
    · intro hne; exact absurd hrec hne
    · intro _
      subst hrec
      rfl
  | cons x xs =>
    have hmax : maxInDay records =
        (xs.map (getDayTotal records)).foldl max (getDayTotal records x) := by
      unfold maxInDay
      rw [h]
      rfl
    refine ⟨?_, ?_, ?_⟩
    · intro d hd
      have hd' : d ∈ listSet (records.map (·.date)) := (mem_listSet _ _).mpr hd
      rw [h] at hd'
      rw [hmax]
      rcases List.mem_cons.mp hd' with h1 | h1
      · exact h1 ▸ le_foldl_max _ _
      · exact foldl_max_le_of_mem _ _ _ (List.mem_map_of_mem _ h1)
    · intro _
      have hm := foldl_max_mem (getDayTotal records x) (xs.map (getDayTotal records))
      rw [← hmax] at hm
      rcases List.mem_cons.mp hm with h1 | h1
      · refine ⟨x, ?_, h1⟩
        have : x ∈ listSet (records.map (·.date)) := by
          rw [h]; exact List.mem_cons_self _ _
        exact (mem_listSet _ _).mp this
      · rcases List.mem_map.mp h1 with ⟨d, hd, hval⟩
        refine ⟨d, ?_, hval.symm⟩
        have : d ∈ listSet (records.map (·.date)) := by
          rw [h]; exact List.mem_cons_of_mem _ hd
        exact (mem_listSet _ _).mp this
    · intro hrec
      subst hrec
      simp [listSet] at h

/-- Witness for C4 at a two-date list: the attained-maximum branch is
exercised with its non-emptiness hypothesis discharged concretely. -/
theorem maxInDay_correct_witness :
    [ConsumptionRecord.mk ⟨2024, 4, 1⟩ "a" 2 none,
     ConsumptionRecord.mk ⟨2024, 4, 3⟩ "b" 3 none] ≠ [] ∧
    (∃ d ∈ [ConsumptionRecord.mk ⟨2024, 4, 1⟩ "a" 2 none,
       ConsumptionRecord.mk ⟨2024, 4, 3⟩ "b" 3 none].map (·.date),
      maxInDay [ConsumptionRecord.mk ⟨2024, 4, 1⟩ "a" 2 none,
        ConsumptionRecord.mk ⟨2024, 4, 3⟩ "b" 3 none] =
      getDayTotal [ConsumptionRecord.mk ⟨2024, 4, 1⟩ "a" 2 none,
        ConsumptionRecord.mk ⟨2024, 4, 3⟩ "b" 3 none] d) := by
  constructor
  · decide
  · exact (maxInDay_correct _).2.1 (by decide)

/-- C9: a record whose joined beer is `null` still adds its full
quantity to the monthly total and its date to the distinct-dates count;
only its alcohol contribution vanishes. -/
theorem nullBeer_contributions (records : List ConsumptionRecord)
    (r : ConsumptionRecord) (h : r.beer = none) :
    getMonthTotal (r :: records) = r.quantity + getMonthTotal records ∧
    getMonthAlcohol (r :: records) = getMonthAlcohol records ∧
    drinkingDays (r :: records) =
      (insert r.date (records.map (·.date)).toFinset).card := by
  refine ⟨?_, ?_, ?_⟩
  · rw [getMonthTotal_eq_sum, getMonthTotal_eq_sum, List.map_cons, List.sum_cons]
  · rw [getMonthAlcohol_eq_sum, getMonthAlcohol_eq_sum, List.map_cons, List.sum_cons,
      specAlcohol, h]
    simp
  · rw [drinkingDays_eq_card, List.map_cons, List.toFinset_cons]

/-- Witness for C9: a null-joined record of quantity 2 next to a joined
record. -/
theorem nullBeer_contributions_witness :
    (ConsumptionRecord.mk ⟨2024, 4, 1⟩ "a" 2 none).beer = none ∧
    (getMonthTotal (ConsumptionRecord.mk ⟨2024, 4, 1⟩ "a" 2 none ::
        [ConsumptionRecord.mk ⟨2024, 4, 3⟩ "b" 3 (some ⟨"B", 500, 5⟩)]) =
      (ConsumptionRecord.mk ⟨2024, 4, 1⟩ "a" 2 none).quantity +
        getMonthTotal [ConsumptionRecord.mk ⟨2024, 4, 3⟩ "b" 3 (some ⟨"B", 500, 5⟩)] ∧
    getMonthAlcohol (ConsumptionRecord.mk ⟨2024, 4, 1⟩ "a" 2 none ::
        [ConsumptionRecord.mk ⟨2024, 4, 3⟩ "b" 3 (some ⟨"B", 500, 5⟩)]) =
      getMonthAlcohol [ConsumptionRecord.mk ⟨2024, 4, 3⟩ "b" 3 (some ⟨"B", 500, 5⟩)] ∧
    drinkingDays (ConsumptionRecord.mk ⟨2024, 4, 1⟩ "a" 2 none ::
        [ConsumptionRecord.mk ⟨2024, 4, 3⟩ "b" 3 (some ⟨"B", 500, 5⟩)]) =
      (insert (ConsumptionRecord.mk ⟨2024, 4, 1⟩ "a" 2 none).date
        ([ConsumptionRecord.mk ⟨2024, 4, 3⟩ "b" 3 (some ⟨"B", 500, 5⟩)].map
          (·.date)).toFinset).card) :=
  ⟨rfl, nullBeer_contributions _ _ rfl⟩

/-- C8: after a save, the stored rows of the selected `(user, date)`
pair are exactly the submitted form entries of positive quantity, and
every other row is untouched. -/
theorem handleSave_replaces (db : List DbRow) (u d : String)
    (form : List (String × ℚ)) :
    (handleSave db u d form).filter (rowMatches u d) =
      (form.filter (fun e => 0 < e.2)).map (fun e => DbRow.mk d e.1 e.2 u) ∧
    (handleSave db u d form).filter (fun r => !(rowMatches u d r)) =
      db.filter (fun r => !(rowMatches u d r)) := by
  have hins : ∀ row ∈ (form.filter (fun e => 0 < e.2)).map
      (fun e => DbRow.mk d e.1 e.2 u), rowMatches u d row = true := by
    intro row hrow
    rcases List.mem_map.mp hrow with ⟨e, _, he⟩
    rw [← he]
    simp [rowMatches]
  unfold handleSave
  by_cases hex : 0 < (db.filter (rowMatches u d)).length
  · rw [if_pos hex]
    constructor
    · rw [List.filter_append, List.filter_filter]
      have h1 : db.filter (fun r => rowMatches u d r && !(rowMatches u d r)) = [] := by
        apply List.filter_eq_nil_iff.mpr
        intro r _
        simp
      rw [h1, List.nil_append]
      exact List.filter_eq_self.mpr hins
    · rw [List.filter_append, List.filter_filter]
      have h2 : ((form.filter (fun e => 0 < e.2)).map
          (fun e => DbRow.mk d e.1 e.2 u)).filter (fun r => !(rowMatches u d r)) = [] := by
        apply List.filter_eq_nil_iff.mpr
        intro r hr
        rw [hins r hr]
        simp
      rw [h2, List.append_nil]
      congr 1
      funext r
      cases rowMatches u d r <;> simp
  · rw [if_neg hex]
    have hempty : db.filter (rowMatches u d) = [] := by
      cases hf : db.filter (rowMatches u d) with
      | nil => rfl
      | cons a l => rw [hf] at hex; simp at hex
    constructor
    · rw [List.filter_append, hempty, List.nil_append]
      exact List.filter_eq_self.mpr hins
    · rw [List.filter_append]
      have h2 : ((form.filter (fun e => 0 < e.2)).map
          (fun e => DbRow.mk d e.1 e.2 u)).filter (fun r => !(rowMatches u d r)) = [] := by
        apply List.filter_eq_nil_iff.mpr
        intro r hr
        rw [hins r hr]
        simp
      rw [h2, List.append_nil]

theorem specAlcohol_eq_codeAlcohol (r : ConsumptionRecord) :
    specAlcohol r = codeAlcohol r := by
  cases hb : r.beer with
  | none => simp [specAlcohol, codeAlcohol, hb]
  | some b => simp [specAlcohol, codeAlcohol, hb]; ring

theorem lookQ_cons_ne (g : MonthGroup) (gs : List MonthGroup) (k : Int × Nat)
    (h : ¬ g.month = k) : lookQ k (g :: gs) = lookQ k gs := by
  simp [lookQ, List.find?_cons, h]

theorem lookA_cons_ne (g : MonthGroup) (gs : List MonthGroup) (k : Int × Nat)
    (h : ¬ g.month = k) : lookA k (g :: gs) = lookA k gs := by
  simp [lookA, List.find?_cons, h]

theorem lookD_cons_ne (g : MonthGroup) (gs : List MonthGroup) (k : Int × Nat)
    (h : ¬ g.month = k) : lookD k (g :: gs) = lookD k gs := by
  simp [lookD, List.find?_cons, h]

theorem lookQ_bump (r : ConsumptionRecord) (gs : List MonthGroup) (k : Int × Nat) :
    lookQ k (bump r gs) =
      lookQ k gs + (if monthKey r.date = k then r.quantity else 0) := by
  induction gs with
  | nil =>
    by_cases hk : monthKey r.date = k
    · simp [bump, lookQ, List.find?, hk]
    · simp [bump, lookQ, List.find?, hk]
  | cons g gs ih =>
    by_cases hg : g.month = monthKey r.date
    · rw [bump, if_pos hg]
      by_cases hk : g.month = k
      · have hk2 : monthKey r.date = k := hg ▸ hk
        simp [lookQ, List.find?, hk, hk2]
      · have hk2 : ¬ monthKey r.date = k := fun h => hk (hg.symm ▸ h)
        simp [lookQ, List.find?, hk, hk2]
    · rw [bump, if_neg hg]
      by_cases hk : g.month = k
      · have hk2 : ¬ monthKey r.date = k := fun h => hg (h ▸ hk)
        simp [lookQ, List.find?, hk, hk2]
      · rw [lookQ_cons_ne g (bump r gs) k hk, lookQ_cons_ne g gs k hk]
        exact ih

theorem lookA_bump (r : ConsumptionRecord) (gs : List MonthGroup) (k : Int × Nat) :
    lookA k (bump r gs) =
      lookA k gs + (if monthKey r.date = k then codeAlcohol r else 0) := by
  induction gs with
  | nil =>
    by_cases hk : monthKey r.date = k
    · simp [bump, lookA, List.find?, hk]
    · simp [bump, lookA, List.find?, hk]
  | cons g gs ih =>
    by_cases hg : g.month = monthKey r.date
    · rw [bump, if_pos hg]
      by_cases hk : g.month = k
      · have hk2 : monthKey r.date = k := hg ▸ hk
        simp [lookA, List.find?, hk, hk2]
      · have hk2 : ¬ monthKey r.date = k := fun h => hk (hg.symm ▸ h)
        simp [lookA, List.find?, hk, hk2]
    · rw [bump, if_neg hg]
      by_cases hk : g.month = k
      · have hk2 : ¬ monthKey r.date = k := fun h => hg (h ▸ hk)
        simp [lookA, List.find?, hk, hk2]
      · rw [lookA_cons_ne g (bump r gs) k hk, lookA_cons_ne g gs k hk]
        exact ih

theorem lookD_bump (r : ConsumptionRecord) (gs : List MonthGroup) (k : Int × Nat) :
    lookD k (bump r gs) =
      if monthKey r.date = k then setAdd (lookD k gs) r.date else lookD k gs := by
  induction gs with
  | nil =>
    by_cases hk : monthKey r.date = k
    · simp [bump, lookD, List.find?, hk, setAdd]
    · simp [bump, lookD, List.find?, hk]
  | cons g gs ih =>
    by_cases hg : g.month = monthKey r.date
    · rw [bump, if_pos hg]
      by_cases hk : g.month = k
      · have hk2 : monthKey r.date = k := hg ▸ hk
        simp [lookD, List.find?, hk, hk2]
      · have hk2 : ¬ monthKey r.date = k := fun h => hk (hg.symm ▸ h)
        simp [lookD, List.find?, hk, hk2]
    · rw [bump, if_neg hg]
      by_cases hk : g.month = k
      · have hk2 : ¬ monthKey r.date = k := fun h => hg (h ▸ hk)
        simp [lookD, List.find?, hk, hk2]
      · rw [lookD_cons_ne g (bump r gs) k hk, lookD_cons_ne g gs k hk]
        exact ih

theorem lookQ_foldl (records : List ConsumptionRecord) (gs : List MonthGroup)
    (k : Int × Nat) :
    lookQ k (records.foldl (fun acc r => bump r acc) gs) =
      lookQ k gs +
        ((records.filter (fun r => monthKey r.date = k)).map (·.quantity)).sum := by
  induction records generalizing gs with
  | nil => simp
  | cons r rs ih =>
    rw [List.foldl_cons, ih, lookQ_bump]
    by_cases hk : monthKey r.date = k
    · rw [if_pos hk, List.filter_cons_of_pos (by simpa using hk)]
      rw [List.map_cons, List.sum_cons]
      ring
    · rw [if_neg hk, List.filter_cons_of_neg (by simpa using hk)]
      ring

theorem lookA_foldl (records : List ConsumptionRecord) (gs : List MonthGroup)
    (k : Int × Nat) :
    lookA k (records.foldl (fun acc r => bump r acc) gs) =
      lookA k gs +
        ((records.filter (fun r => monthKey r.date = k)).map codeAlcohol).sum := by
  induction records generalizing gs with
  | nil => simp
  | cons r rs ih =>
    rw [List.foldl_cons, ih, lookA_bump]
    by_cases hk : monthKey r.date = k
    · rw [if_pos hk, List.filter_cons_of_pos (by simpa using hk)]
      rw [List.map_cons, List.sum_cons]
      ring
    · rw [if_neg hk, List.filter_cons_of_neg (by simpa using hk)]
      ring

theorem lookD_foldl (records : List ConsumptionRecord) (gs : List MonthGroup)
    (k : Int × Nat) :
    lookD k (records.foldl (fun acc r => bump r acc) gs) =
      ((records.filter (fun r => monthKey r.date = k)).map (·.date)).foldl
        setAdd (lookD k gs) := by
  induction records generalizing gs with
  | nil => simp
  | cons r rs ih =>
    rw [List.foldl_cons, ih, lookD_bump]
    by_cases hk : monthKey r.date = k
    · rw [if_pos hk, List.filter_cons_of_pos (by simpa using hk)]
      rw [List.map_cons, List.foldl_cons]
    · rw [if_neg hk, List.filter_cons_of_neg (by simpa using hk)]

theorem lookQ_yearlyGroups (records : List ConsumptionRecord) (k : Int × Nat) :
    lookQ k (yearlyGroups records) =
      ((records.filter (fun r => monthKey r.date = k)).map (·.quantity)).sum := by
  rw [yearlyGroups, lookQ_foldl]
  simp [lookQ, List.find?]

theorem lookA_yearlyGroups (records : List ConsumptionRecord) (k : Int × Nat) :
    lookA k (yearlyGroups records) =
      ((records.filter (fun r => monthKey r.date = k)).map codeAlcohol).sum := by
  rw [yearlyGroups, lookA_foldl]
  simp [lookA, List.find?]

theorem lookD_yearlyGroups (records : List ConsumptionRecord) (k : Int × Nat) :
    lookD k (yearlyGroups records) =
      listSet ((records.filter (fun r => monthKey r.date = k)).map (·.date)) := by
  rw [yearlyGroups, lookD_foldl]
  have hinit : lookD k ([] : List MonthGroup) = [] := by
    simp [lookD, List.find?]
  rw [hinit, listSet]
  rfl

theorem find?_map_month (gs : List MonthGroup) (k : Int × Nat) :
    (gs.map (fun g =>
        (⟨g.month, g.totalQuantity, g.totalAlcohol, g.daysConsumed.length⟩ :
          MonthStat))).find? (fun s => s.month = k) =
      ((gs.find? (fun g => g.month = k)).map (fun g =>
        (⟨g.month, g.totalQuantity, g.totalAlcohol, g.daysConsumed.length⟩ :
          MonthStat))) := by
  induction gs with
  | nil => rfl
  | cons g gs ih =>
    by_cases hk : g.month = k
    · simp [List.find?_cons, hk]
    · simp [List.find?_cons, hk, ih]

-- Each of the 12 breakdown rows equals the direct aggregation of the
-- records of its month.
theorem monthlyBreakdown_eq (records : List ConsumptionRecord) (year : Int) :
    monthlyBreakdown records year =
      (List.range 12).map (fun i =>
        (⟨(year, i), getMonthTotal (monthSlice records year i),
          getMonthAlcohol (monthSlice records year i),
          drinkingDays (monthSlice records year i)⟩ : MonthStat)) := by
  unfold monthlyBreakdown
  apply List.map_congr_left
  intro i _
  have hq : getMonthTotal (monthSlice records year i) =
      lookQ (year, i) (yearlyGroups records) := by
    rw [getMonthTotal_eq_sum, lookQ_yearlyGroups, monthSlice]
  have ha : getMonthAlcohol (monthSlice records year i) =
      lookA (year, i) (yearlyGroups records) := by
    rw [getMonthAlcohol_eq_sum, lookA_yearlyGroups, monthSlice]
    congr 1
    exact List.map_congr_left (fun r _ => specAlcohol_eq_codeAlcohol r)
  have hd : drinkingDays (monthSlice records year i) =
      (lookD (year, i) (yearlyGroups records)).length := by
    rw [drinkingDays, lookD_yearlyGroups, monthSlice]
  unfold yearlyStats
  rw [find?_map_month]
  cases hf : (yearlyGroups records).find? (fun g => g.month = (year, i)) with
  | none =>
    have h1 : lookQ (year, i) (yearlyGroups records) = 0 := by simp [lookQ, hf]
    have h2 : lookA (year, i) (yearlyGroups records) = 0 := by simp [lookA, hf]
    have h3 : lookD (year, i) (yearlyGroups records) = [] := by simp [lookD, hf]
    rw [hq, ha, hd, h1, h2, h3]
    rfl
  | some g =>
    have h1 : lookQ (year, i) (yearlyGroups records) = g.totalQuantity := by
      simp [lookQ, hf]
    have h2 : lookA (year, i) (yearlyGroups records) = g.totalAlcohol := by
      simp [lookA, hf]
    have h3 : lookD (year, i) (yearlyGroups records) = g.daysConsumed := by
      simp [lookD, hf]
    rw [hq, ha, hd, h1, h2, h3]
    rfl

theorem sum_indicator_range {M : Type} [AddCommMonoid M] (n m : Nat) (c : M) :
    ((List.range n).map (fun i => if m = i then c else 0)).sum =
      if m < n then c else 0 := by
  induction n with
  | zero => simp
  | succ n ih =>
    rw [List.range_succ, List.map_append, List.sum_append, ih]
    simp only [List.map_cons, List.map_nil, List.sum_cons, List.sum_nil]
    by_cases h1 : m < n
    · have h2 : ¬ m = n := Nat.ne_of_lt h1
      have h3 : m < n + 1 := Nat.lt_succ_of_lt h1
      simp [h1, h2, h3]
    · by_cases h2 : m = n
      · subst h2
        simp [h1, Nat.lt_succ_self]
      · have h3 : ¬ m < n + 1 := by omega
        simp [h1, h2, h3]

theorem list_sum_map_add {α M : Type} [AddCommMonoid M] (l : List α) (f g : α → M) :
    (l.map (fun x => f x + g x)).sum = (l.map f).sum + (l.map g).sum := by
  induction l with
  | nil => simp
  | cons a l ih =>
    simp only [List.map_cons, List.sum_cons, ih]
    exact add_add_add_comm _ _ _ _

-- The twelve month slices of a year's record list partition the
-- mapped sum of any per-record function.
theorem slice_sum {M : Type} [AddCommMonoid M] (records : List ConsumptionRecord)
    (year : Int) (f : ConsumptionRecord → M)
    (h : ∀ r ∈ records, r.date.year = year ∧ r.date.month < 12) :
    ((List.range 12).map (fun i => ((monthSlice records year i).map f).sum)).sum =
      (records.map f).sum := by
  induction records with
  | nil => simp [monthSlice]
  | cons r rs ih =>
    have hr := h r (List.mem_cons_self r rs)
    have hrs : ∀ x ∈ rs, x.date.year = year ∧ x.date.month < 12 :=
      fun x hx => h x (List.mem_cons_of_mem r hx)
    have hrow : ∀ i, ((monthSlice (r :: rs) year i).map f).sum =
        (if r.date.month = i then f r else 0) +
          ((monthSlice rs year i).map f).sum := by
      intro i
      unfold monthSlice
      by_cases hc : monthKey r.date = (year, i)
      · have hm : r.date.month = i := by
          have := congrArg Prod.snd hc
          simpa [monthKey] using this
        rw [List.filter_cons_of_pos (by simpa using hc), if_pos hm,
          List.map_cons, List.sum_cons]
      · have hm : ¬ r.date.month = i := by
          intro he
          exact hc (by rw [monthKey, hr.1, he])
        rw [List.filter_cons_of_neg (by simpa using hc), if_neg hm, zero_add]
    have hcongr : ((List.range 12).map
        (fun i => ((monthSlice (r :: rs) year i).map f).sum)).sum =
        ((List.range 12).map (fun i =>
          (if r.date.month = i then f r else 0) +
            ((monthSlice rs year i).map f).sum)).sum :=
      congrArg List.sum (List.map_congr_left (fun i _ => hrow i))
    rw [hcongr, list_sum_map_add, sum_indicator_range, if_pos hr.2, ih hrs,
      List.map_cons, List.sum_cons]

theorem sum_map_one (l : List ConsumptionRecord) :
    (l.map (fun _ => (1 : Nat))).sum = l.length := by
  induction l with
  | nil => rfl
  | cons a l ih => simp [ih, Nat.add_comm]

/-- C7: the yearly view's monthly breakdown has exactly 12 rows ordered
by month index 0–11; row `i` carries the direct aggregation of the
records of month `i`, and when the input is one year's records the 12
slices partition it. -/
theorem monthlyBreakdown_partition (records : List ConsumptionRecord) (year : Int)
    (h : ∀ r ∈ records, r.date.year = year ∧ r.date.month < 12) :
    (monthlyBreakdown records year).length = 12 ∧
    (∀ i, i < 12 → (monthlyBreakdown records year)[i]? =
      some ⟨(year, i), getMonthTotal (monthSlice records year i),
        getMonthAlcohol (monthSlice records year i),
        drinkingDays (monthSlice records year i)⟩) ∧
    ((List.range 12).map (fun i => (monthSlice records year i).length)).sum =
      records.length := by
  refine ⟨?_, ?_, ?_⟩
  · rw [monthlyBreakdown_eq]
    simp
  · intro i hi
    rw [monthlyBreakdown_eq, List.getElem?_map, List.getElem?_range hi]
    rfl
  · have := slice_sum records year (fun _ => (1 : Nat)) h
    rw [sum_map_one] at this
    have hcongr : ((List.range 12).map
        (fun i => (monthSlice records year i).length)).sum =
        ((List.range 12).map
          (fun i => ((monthSlice records year i).map (fun _ => (1 : Nat))).sum)).sum :=
      congrArg List.sum
        (List.map_congr_left (fun i _ => (sum_map_one (monthSlice records year i)).symm))
    rw [hcongr, this]

/-- Witness for C7 at a concrete two-month list of the year 2024. -/
theorem monthlyBreakdown_partition_witness :
    (∀ r ∈ [ConsumptionRecord.mk ⟨2024, 4, 1⟩ "a" 2 none,
        ConsumptionRecord.mk ⟨2024, 7, 2⟩ "b" 3 (some ⟨"B", 500, 5⟩)],
      r.date.year = 2024 ∧ r.date.month < 12) ∧
    (monthlyBreakdown [ConsumptionRecord.mk ⟨2024, 4, 1⟩ "a" 2 none,
        ConsumptionRecord.mk ⟨2024, 7, 2⟩ "b" 3 (some ⟨"B", 500, 5⟩)] 2024).length = 12 := by
  constructor
  · decide
  · exact (monthlyBreakdown_partition _ 2024 (by decide)).1

/-- C6: summing the breakdown's `totalQuantity` and `totalAlcohol`
columns over the 12 months gives the direct aggregation of the whole
list, and likewise for the spec's `totalVolume` over the 12 month
slices. -/
theorem yearly_breakdown_sums (records : List ConsumptionRecord) (year : Int)
    (h : ∀ r ∈ records, r.date.year = year ∧ r.date.month < 12) :
    ((monthlyBreakdown records year).map (·.totalQuantity)).sum =
      getMonthTotal records ∧
    ((monthlyBreakdown records year).map (·.totalAlcohol)).sum =
      getMonthAlcohol records ∧
    ((List.range 12).map (fun i => totalVolume (monthSlice records year i))).sum =
      totalVolume records := by
  refine ⟨?_, ?_, ?_⟩
  · rw [monthlyBreakdown_eq, List.map_map, getMonthTotal_eq_sum]
    have hcongr : ((List.range 12).map
        ((fun s : MonthStat => s.totalQuantity) ∘ (fun i =>
          (⟨(year, i), getMonthTotal (monthSlice records year i),
            getMonthAlcohol (monthSlice records year i),
            drinkingDays (monthSlice records year i)⟩ : MonthStat)))).sum =
        ((List.range 12).map (fun i =>
          ((monthSlice records year i).map (·.quantity)).sum)).sum :=
      congrArg List.sum (List.map_congr_left
        (fun i _ => getMonthTotal_eq_sum (monthSlice records year i)))
    rw [hcongr]
    exact slice_sum records year (·.quantity) h
  · rw [monthlyBreakdown_eq, List.map_map, getMonthAlcohol_eq_sum]
    have hcongr : ((List.range 12).map
        ((fun s : MonthStat => s.totalAlcohol) ∘ (fun i =>
          (⟨(year, i), getMonthTotal (monthSlice records year i),
            getMonthAlcohol (monthSlice records year i),
            drinkingDays (monthSlice records year i)⟩ : MonthStat)))).sum =
        ((List.range 12).map (fun i =>
          ((monthSlice records year i).map specAlcohol).sum)).sum :=
      congrArg List.sum (List.map_congr_left
        (fun i _ => getMonthAlcohol_eq_sum (monthSlice records year i)))
    rw [hcongr]
    exact slice_sum records year specAlcohol h
  · unfold totalVolume
    exact slice_sum records year volOf h

/-- Witness for C6 at the same concrete two-month list. -/
theorem yearly_breakdown_sums_witness :
    (∀ r ∈ [ConsumptionRecord.mk ⟨2024, 4, 1⟩ "a" 2 none,
        ConsumptionRecord.mk ⟨2024, 7, 2⟩ "b" 3 (some ⟨"B", 500, 5⟩)],
      r.date.year = 2024 ∧ r.date.month < 12) ∧
    ((monthlyBreakdown [ConsumptionRecord.mk ⟨2024, 4, 1⟩ "a" 2 none,
        ConsumptionRecord.mk ⟨2024, 7, 2⟩ "b" 3 (some ⟨"B", 500, 5⟩)] 2024).map
      (·.totalQuantity)).sum =
      getMonthTotal [ConsumptionRecord.mk ⟨2024, 4, 1⟩ "a" 2 none,
        ConsumptionRecord.mk ⟨2024, 7, 2⟩ "b" 3 (some ⟨"B", 500, 5⟩)] := by
  constructor
  · decide
  · exact (yearly_breakdown_sums _ 2024 (by decide)).1

theorem insertDesc_perm (x : RankEntry) (l : List RankEntry) :
    (insertDesc x l).Perm (x :: l) := by
  induction l with
  | nil => exact List.Perm.refl _
  | cons y ys ih =>
    rw [insertDesc]
    by_cases hc : y.quantity < x.quantity
    · rw [if_pos hc]
    · rw [if_neg hc]
      exact (List.Perm.cons y ih).trans (List.Perm.swap x y ys)

theorem mem_insertDesc (x z : RankEntry) (l : List RankEntry) :
    z ∈ insertDesc x l ↔ z = x ∨ z ∈ l := by
  rw [(insertDesc_perm x l).mem_iff, List.mem_cons]

theorem foldl_insertDesc_perm (l acc : List RankEntry) :
    (l.foldl (fun a x => insertDesc x a) acc).Perm (l ++ acc) := by
  induction l generalizing acc with
  | nil => exact List.Perm.refl _
  | cons x xs ih =>
    rw [List.foldl_cons]
    refine (ih (insertDesc x acc)).trans ?_
    refine (List.Perm.append_left xs (insertDesc_perm x acc)).trans ?_
    exact List.perm_middle

theorem insertDesc_pairwise (x : RankEntry) (l : List RankEntry)
    (hl : l.Pairwise rankR) (hidx : ∀ y ∈ l, y.idx < x.idx) :
    (insertDesc x l).Pairwise rankR := by
  induction l with
  | nil => simp [insertDesc]
  | cons y ys ih =>
    rw [List.pairwise_cons] at hl
    rw [insertDesc]
    by_cases hc : y.quantity < x.quantity
    · rw [if_pos hc, List.pairwise_cons]
      constructor
      · intro z hz
        rcases List.mem_cons.mp hz with h1 | h1
        · subst h1
          exact Or.inl hc
        · rcases hl.1 z h1 with h2 | h2
          · exact Or.inl (lt_trans h2 hc)
          · exact Or.inl (h2.1 ▸ hc)
      · rw [List.pairwise_cons]
        exact hl
    · rw [if_neg hc, List.pairwise_cons]
      constructor
      · intro z hz
        rcases (mem_insertDesc x z ys).mp hz with h1 | h1
        · subst h1
          rcases lt_or_eq_of_le (not_lt.mp hc) with h2 | h2
          · exact Or.inl h2
          · exact Or.inr ⟨h2.symm, hidx y (List.mem_cons_self y ys)⟩
        · exact hl.1 z h1
      · exact ih hl.2 (fun z hz => hidx z (List.mem_cons_of_mem y hz))

theorem foldl_insertDesc_pairwise (l acc : List RankEntry)
    (hacc : acc.Pairwise rankR)
    (hl : l.Pairwise (fun a b => a.idx < b.idx))
    (hcross : ∀ y ∈ acc, ∀ x ∈ l, y.idx < x.idx) :
    (l.foldl (fun a x => insertDesc x a) acc).Pairwise rankR := by
  induction l generalizing acc with
  | nil => exact hacc
  | cons x xs ih =>
    rw [List.pairwise_cons] at hl
    rw [List.foldl_cons]
    apply ih (insertDesc x acc)
    · exact insertDesc_pairwise x acc hacc
        (fun y hy => hcross y hy x (List.mem_cons_self x xs))
    · exact hl.2
    · intro y hy z hz
      rcases (mem_insertDesc x y acc).mp hy with h1 | h1
      · subst h1
        exact hl.1 z hz
      · exact hcross y h1 z (List.mem_cons_of_mem x hz)

theorem le_fst_of_mem_enumFrom {α : Type} (l : List α) (n : Nat) (p : Nat × α)
    (hp : p ∈ List.enumFrom n l) : n ≤ p.1 := by
  induction l generalizing n with
  | nil => simp [List.enumFrom] at hp
  | cons x xs ih =>
    rw [List.enumFrom] at hp
    rcases List.mem_cons.mp hp with h1 | h1
    · subst h1
      exact le_refl n
    · exact le_trans (Nat.le_succ n) (ih (n + 1) h1)

theorem pairwise_fst_enumFrom {α : Type} (l : List α) (n : Nat) :
    (List.enumFrom n l).Pairwise (fun p q => p.1 < q.1) := by
  induction l generalizing n with
  | nil => simp [List.enumFrom]
  | cons x xs ih =>
    rw [List.enumFrom, List.pairwise_cons]
    constructor
    · intro q hq
      exact lt_of_lt_of_le (Nat.lt_succ_self n) (le_fst_of_mem_enumFrom xs (n + 1) q hq)
    · exact ih (n + 1)

theorem getElem?_of_mem_enumFrom {α : Type} (l : List α) (n : Nat) (p : Nat × α)
    (hp : p ∈ List.enumFrom n l) : l[p.1 - n]? = some p.2 := by
  induction l generalizing n with
  | nil => simp [List.enumFrom] at hp
  | cons x xs ih =>
    rw [List.enumFrom] at hp
    rcases List.mem_cons.mp hp with h1 | h1
    · subst h1
      simp
    · have hle : n + 1 ≤ p.1 := le_fst_of_mem_enumFrom xs (n + 1) p h1
      have hstep : p.1 - n = (p.1 - (n + 1)) + 1 := by omega
      rw [hstep, List.getElem?_cons_succ]
      exact ih (n + 1) h1

theorem ranking_perm_entries (records : List ConsumptionRecord) :
    (ranking records).Perm (rankingEntries records) := by
  have h := foldl_insertDesc_perm (rankingEntries records) []
  simpa using h

theorem rankingEntries_map_id (records : List ConsumptionRecord) :
    (rankingEntries records).map (·.beer_id) = distinctIds records := by
  unfold rankingEntries
  rw [List.map_map]
  have hcomp : ((fun e : RankEntry => e.beer_id) ∘ (fun p : Nat × String =>
      (⟨p.2, p.1, qtySum records p.2, volSum records p.2⟩ : RankEntry))) =
      Prod.snd := by
    funext p
    rfl
  rw [hcomp, List.enum_map_snd]

/-- C5: the modelled ranking holds exactly one entry per distinct drink
id of the input (in the sense of a permutation of the duplicate-free
first-encounter id list), each entry carries that drink's aggregated
quantity and volume and its first-encounter rank, and the list is
sorted by strictly descending quantity with ties in first-encounter
order (stable). -/
theorem ranking_spec (records : List ConsumptionRecord) :
    ((ranking records).map (·.beer_id)).Perm (distinctIds records) ∧
    (distinctIds records).Nodup ∧
    (∀ i, i ∈ distinctIds records ↔ i ∈ records.map (·.beer_id)) ∧
    (∀ e ∈ ranking records,
      e.quantity = qtySum records e.beer_id ∧
      e.volume = volSum records e.beer_id ∧
      (distinctIds records)[e.idx]? = some e.beer_id) ∧
    (ranking records).Pairwise rankR := by
  refine ⟨?_, nodup_listSet _, fun i => mem_listSet _ i, ?_, ?_⟩
  · have h := (ranking_perm_entries records).map (·.beer_id)
    rw [rankingEntries_map_id] at h
    exact h
  · intro e he
    have he2 : e ∈ rankingEntries records :=
      (ranking_perm_entries records).mem_iff.mp he
    unfold rankingEntries at he2
    rcases List.mem_map.mp he2 with ⟨p, hp, hpe⟩
    subst hpe
    refine ⟨rfl, rfl, ?_⟩
    have hg := getElem?_of_mem_enumFrom (distinctIds records) 0 p hp
    rwa [Nat.sub_zero] at hg
  · apply foldl_insertDesc_pairwise (rankingEntries records) [] List.Pairwise.nil
    · unfold rankingEntries
      rw [List.pairwise_map]
      exact pairwise_fst_enumFrom (distinctIds records) 0
    · intro y hy
      simp at hy

theorem reindex_map_eraseOrder (l : List Beer) :
    (reindex l).map eraseOrder = l.map eraseOrder := by
  unfold reindex
  rw [List.map_map]
  have hcomp : (eraseOrder ∘ fun p : Nat × Beer =>
      { p.2 with sort_order := (p.1 : Int) }) = (eraseOrder ∘ Prod.snd) := by
    funext p
    rfl
  rw [hcomp, ← List.map_map, List.enum_map_snd]

theorem reindex_map_sortOrder (l : List Beer) :
    (reindex l).map (·.sort_order) = (List.range l.length).map Int.ofNat := by
  unfold reindex
  rw [List.map_map]
  have hcomp : ((fun b : Beer => b.sort_order) ∘ fun p : Nat × Beer =>
      { p.2 with sort_order := (p.1 : Int) }) = (Int.ofNat ∘ Prod.fst) := by
    funext p
    rfl
  rw [hcomp, ← List.map_map, List.enum_map_fst]

theorem swapAt_length {α : Type} [Inhabited α] (l : List α) (i j : Nat) :
    (swapAt l i j).length = l.length := by
  simp [swapAt]

theorem map_swapAt {α β : Type} [Inhabited α] [Inhabited β] (f : α → β)
    (l : List α) (i j : Nat) (hi : i < l.length) (hj : j < l.length) :
    (swapAt l i j).map f = swapAt (l.map f) i j := by
  have hg : ∀ (k : Nat), k < l.length →
      (l.map f).getD k default = f (l.getD k default) := by
    intro k hk
    rw [List.getD_eq_getElem?_getD, List.getD_eq_getElem?_getD, List.getElem?_map,
      List.getElem?_eq_getElem hk]
    rfl
  unfold swapAt
  rw [List.map_set, List.map_set, hg i hi, hg j hj]

/-- C10: moving up at index 0 or down at the last index is a no-op; an
in-range move transposes the two adjacent entries (all fields but the
sort position unchanged) and rewrites every stored sort position to the
new list index, leaving positions contiguous `0..n-1`. -/
theorem moveBeer_spec (beers : List Beer) (index : Nat) :
    moveBeer beers 0 MoveDir.up = beers ∧
    moveBeer beers (beers.length - 1) MoveDir.down = beers ∧
    (1 ≤ index → index < beers.length →
      ((moveBeer beers index MoveDir.up).map eraseOrder =
        swapAt (beers.map eraseOrder) index (index - 1) ∧
      (moveBeer beers index MoveDir.up).map (·.sort_order) =
        (List.range beers.length).map Int.ofNat)) ∧
    (index + 1 < beers.length →
      ((moveBeer beers index MoveDir.down).map eraseOrder =
        swapAt (beers.map eraseOrder) index (index + 1) ∧
      (moveBeer beers index MoveDir.down).map (·.sort_order) =
        (List.range beers.length).map Int.ofNat)) := by
  refine ⟨?_, ?_, ?_, ?_⟩
  · unfold moveBeer
    rw [if_pos]
    exact Or.inl (by simp [targetIndex])
  · unfold moveBeer
    rw [if_pos]
    refine Or.inr ?_
    simp only [targetIndex]
    omega
  · intro h1 h2
    have hguard : ¬(targetIndex index MoveDir.up < 0 ∨
        (beers.length : Int) ≤ targetIndex index MoveDir.up) := by
      simp only [targetIndex]
      omega
    have ht : (targetIndex index MoveDir.up).toNat = index - 1 := by
      simp only [targetIndex]
      omega
    have hlt : index - 1 < beers.length := by omega
    constructor
    · rw [moveBeer, if_neg hguard, ht, reindex_map_eraseOrder,
        map_swapAt eraseOrder beers index (index - 1) h2 hlt]
    · rw [moveBeer, if_neg hguard, ht, reindex_map_sortOrder, swapAt_length]
  · intro h2
    have hguard : ¬(targetIndex index MoveDir.down < 0 ∨
        (beers.length : Int) ≤ targetIndex index MoveDir.down) := by
      simp only [targetIndex]
      omega
    have ht : (targetIndex index MoveDir.down).toNat = index + 1 := by
      simp only [targetIndex]
      omega
    constructor
    · rw [moveBeer, if_neg hguard, ht, reindex_map_eraseOrder,
        map_swapAt eraseOrder beers index (index + 1) (by omega) h2]
    · rw [moveBeer, if_neg hguard, ht, reindex_map_sortOrder, swapAt_length]

/-- Witness for C10: an in-range upward move in a three-beer list. -/
theorem moveBeer_spec_witness :
    1 ≤ 1 ∧
    1 < ([Beer.mk "a" "A" 500 5 0, Beer.mk "b" "B" 330 4 1,
      Beer.mk "c" "C" 473 6 2] : List Beer).length ∧
    ((moveBeer [Beer.mk "a" "A" 500 5 0, Beer.mk "b" "B" 330 4 1,
        Beer.mk "c" "C" 473 6 2] 1 MoveDir.up).map eraseOrder =
      swapAt ([Beer.mk "a" "A" 500 5 0, Beer.mk "b" "B" 330 4 1,
        Beer.mk "c" "C" 473 6 2].map eraseOrder) 1 0 ∧
    (moveBeer [Beer.mk "a" "A" 500 5 0, Beer.mk "b" "B" 330 4 1,
        Beer.mk "c" "C" 473 6 2] 1 MoveDir.up).map (·.sort_order) =
      (List.range ([Beer.mk "a" "A" 500 5 0, Beer.mk "b" "B" 330 4 1,
        Beer.mk "c" "C" 473 6 2] : List Beer).length).map Int.ofNat) := by
  refine ⟨le_refl 1, by norm_num, ?_⟩
  exact (moveBeer_spec [Beer.mk "a" "A" 500 5 0, Beer.mk "b" "B" 330 4 1,
    Beer.mk "c" "C" 473 6 2] 1).2.2.1 (le_refl 1) (by norm_num)
